/-
Verification of the diffusion core of `src/ddpm.py` (class `Diffusion`):
noise-schedule construction, the closed-form forward noising process,
timestep sampling, and the iterative reverse sampler.

The embedding works over `ℚ` for tensor elements.  `torch.sqrt` is kept
abstract as a parameter `sq : ℚ → ℚ` (the claims under study are structural:
which schedule entry is used, how entropy is consumed, the algebraic shape of
each update; none depends on the numeric value of a square root).  A tensor
batch is a `List (List ℚ)`: a list of flattened per-sample arrays.  The
entropy source is an explicit stream: `g d i j` is element `j` of sample `i`
of the `d`-th standard-normal draw; a counter `k` tracks how many draws have
been consumed, so "one fresh draw" is visible as `k ↦ k + 1`.
-/
import Mathlib

set_option autoImplicit false

namespace DDPM

/-- A batch of samples; each sample is its flattened array of elements. -/
abbrev Batch := List (List ℚ)

/-- Entropy stream: draw index → sample index → element index → value. -/
abbrev Entropy := ℕ → ℕ → ℕ → ℚ

/-- `torch.randn_like(x)`: a standard-normal draw with the shape of `x`,
taken at draw counter `k`. -/
def randn_like (g : Entropy) (k : ℕ) (x : Batch) : Batch :=
  x.enum.map (fun p => (List.range p.2.length).map (g k p.1))

/-- `torch.randn((n, 3, s, s))` flattened per sample: `n` samples of `L`
elements each, taken at draw counter `k`. -/
def randnBatch (g : Entropy) (k : ℕ) (n L : ℕ) : Batch :=
  (List.range n).map (fun i => (List.range L).map (g k i))

/-- `torch.zeros_like(x)`. -/
def zeros_like (x : Batch) : Batch :=
  x.map (fun xi => xi.map (fun _ => (0 : ℚ)))

/-- Errors raised by the tensor backend. -/
inductive TorchError where
  | indexOutOfRange
  deriving DecidableEq, Repr

/-- PyTorch integer tensor indexing `l[i]`: indices in `[0, len)` index
directly, indices in `[-len, 0)` wrap to `len + i`, anything else raises
`IndexError`. -/
def torchIndex (l : List ℚ) (i : ℤ) : Except TorchError ℚ :=
  if 0 ≤ i ∧ i < (l.length : ℤ) then Except.ok (l.getD i.toNat 0)
  else if -(l.length : ℤ) ≤ i ∧ i < 0 then Except.ok (l.getD (i + l.length).toNat 0)
  else Except.error TorchError.indexOutOfRange

/-- Tensor gather `l[t]` for an index tensor `t` (as in `self.alpha_hat[t]`):
elementwise `torchIndex`, failing if any index fails. -/
def gather (l : List ℚ) : List ℤ → Except TorchError (List ℚ)
  | [] => Except.ok []
  | ti :: rest => do
    let v ← torchIndex l ti
    let vs ← gather l rest
    Except.ok (v :: vs)

/-- `torch.linspace(s, e, steps)`: `steps` evenly spaced points from `s` to
`e` inclusive; point `i` is `s + (e - s) * i / (steps - 1)`. -/
def linspace (s e : ℚ) (steps : ℕ) : List ℚ :=
  (List.range steps).map (fun (i : ℕ) => s + (e - s) * (i : ℚ) / ((steps : ℚ) - 1))

/-- `torch.cumprod` along a 1-D tensor. -/
def cumprod : List ℚ → List ℚ
  | [] => []
  | a :: rest => a :: (cumprod rest).map (fun v => a * v)

/-- The configuration-error kind named by the spec; the Python constructor
has no code path that raises it. -/
inductive ConfigError where
  | invalidConfiguration
  deriving DecidableEq, Repr

/-- The `Diffusion` instance: constructor parameters.  The schedule and the
derived sequences are functions of these fields, computed below exactly as in
`__init__`. -/
structure Diffusion where
  noise_steps : ℕ
  beta_start : ℚ
  beta_end : ℚ
  img_size : ℕ
  deriving DecidableEq, Repr

/-- `Diffusion.__init__`: stores the parameters and builds the schedule.  The
Python constructor performs no validation of `noise_steps`, `beta_start` or
`beta_end`, so the embedded constructor always succeeds. -/
def Diffusion.init (noise_steps : ℕ) (beta_start beta_end : ℚ) (img_size : ℕ) :
    Except ConfigError Diffusion :=
  Except.ok { noise_steps := noise_steps, beta_start := beta_start,
              beta_end := beta_end, img_size := img_size }

/-- `prepare_noise_schedule`: `torch.linspace(beta_start, beta_end, noise_steps)`. -/
def Diffusion.prepare_noise_schedule (d : Diffusion) : List ℚ :=
  linspace d.beta_start d.beta_end d.noise_steps

/-- `self.beta`. -/
def Diffusion.beta (d : Diffusion) : List ℚ :=
  d.prepare_noise_schedule

/-- `self.alpha = 1. - self.beta`. -/
def Diffusion.alpha (d : Diffusion) : List ℚ :=
  d.beta.map (fun b => 1 - b)

/-- `self.alpha_hat = torch.cumprod(self.alpha, dim=0)`. -/
def Diffusion.alpha_hat (d : Diffusion) : List ℚ :=
  cumprod d.alpha

/-- `noise_images(x, t)`: gathers `alpha_hat[t]`, takes square roots, draws
one fresh noise tensor shaped like `x`, and returns the noised batch with the
noise; the draw counter advances by one. -/
def Diffusion.noise_images (d : Diffusion) (sq : ℚ → ℚ) (g : Entropy) (k : ℕ)
    (x : Batch) (t : List ℤ) : Except TorchError ((Batch × Batch) × ℕ) := do
  let ah ← gather d.alpha_hat t
  let sqrt_alpha_hat := ah.map sq
  let sqrt_one_minus_alpha_hat := ah.map (fun a => sq (1 - a))
  let eps := randn_like g k x
  Except.ok ((List.zipWith
      (fun (ss : ℚ × ℚ) (xe : List ℚ × List ℚ) =>
        List.zipWith (fun xv ev => ss.1 * xv + ss.2 * ev) xe.1 xe.2)
      (sqrt_alpha_hat.zip sqrt_one_minus_alpha_hat) (x.zip eps), eps), k + 1)

/-- `sample_timesteps(n)`: `torch.randint(low=1, high=noise_steps, size=(n,))`,
drawing from an integer entropy stream `gi`; raw draw `u` maps to
`1 + u % (noise_steps - 1)`, the uniform image of a uniform raw draw. -/
def Diffusion.sample_timesteps (d : Diffusion) (gi : ℕ → ℕ) (k : ℕ) (n : ℕ) :
    List ℕ × ℕ :=
  ((List.range n).map (fun j => 1 + gi (k + j) % (d.noise_steps - 1)), k + 1)

/-- The mode an `nn.Module` is in: `model.train()` / `model.eval()` toggle it. -/
inductive Mode where
  | training
  | evaluation
  deriving DecidableEq, Repr

/-- The external noise predictor: a mode flag plus its forward function
`model(x, t)`, whose behaviour may depend on the current mode (dropout,
batch-norm, ...). -/
structure Model where
  mode : Mode
  predict : Mode → Batch → List ℕ → Batch

/-- `model.eval()`. -/
def Model.eval (m : Model) : Model :=
  { m with mode := Mode.evaluation }

/-- `model.train()`. -/
def Model.train (m : Model) : Model :=
  { m with mode := Mode.training }

/-- `model(x, t)`: the forward pass under the model's current mode. -/
def Model.run (m : Model) (x : Batch) (t : List ℕ) : Batch :=
  m.predict m.mode x t

/-- The timesteps visited by the reverse loop:
`reversed(range(1, noise_steps))`, i.e. `[T-1, T-2, ..., 1]`. -/
def revTimesteps (T : ℕ) : List ℕ :=
  (List.range' 1 (T - 1)).reverse

/-- `x.clamp(lo, hi)`. -/
def clamp (v lo hi : ℚ) : ℚ :=
  min (max v lo) hi

/-- Truncation toward zero, as float-to-integer conversion does. -/
def truncInt (q : ℚ) : ℤ :=
  q.num / (q.den : ℤ)

/-- `.type(torch.uint8)` on a float value: truncate toward zero, wrap mod 256. -/
def toUInt8 (q : ℚ) : ℕ :=
  (truncInt q % 256).toNat

/-- The post-loop pixel pipeline of `sample`:
`x = (x.clamp(-1, 1) + 1) / 2` then `x = (x * 255).type(torch.uint8)`. -/
def postprocess (v : ℚ) : ℕ :=
  toUInt8 ((clamp v (-1) 1 + 1) / 2 * 255)

/-- One iteration of the reverse loop of `sample` at timestep `i`, acting on
the pair (current batch, entropy counter): broadcast `i` to the batch, query
the predictor, gather `alpha[t]`, `alpha_hat[t]`, `beta[t]`, draw fresh noise
when `i > 1` (zeros otherwise), and apply the update formula. -/
def Diffusion.sampleStep (d : Diffusion) (sq : ℚ → ℚ) (m : Model) (g : Entropy)
    (xk : Batch × ℕ) (i : ℕ) : Batch × ℕ :=
  let x := xk.1
  let k := xk.2
  let t := List.replicate x.length i
  let predicted_noise := m.run x t
  let alpha := t.map (fun ti => d.alpha.getD ti 0)
  let alpha_hat := t.map (fun ti => d.alpha_hat.getD ti 0)
  let beta := t.map (fun ti => d.beta.getD ti 0)
  let noise := if 1 < i then randn_like g k x else zeros_like x
  let x2 := List.zipWith
    (fun (ab : (ℚ × ℚ) × ℚ) (xpn : List ℚ × (List ℚ × List ℚ)) =>
      List.zipWith
        (fun xv (pn : ℚ × ℚ) =>
          1 / sq ab.1.1 * (xv - (1 - ab.1.1) / sq (1 - ab.1.2) * pn.1)
            + sq ab.2 * pn.2)
        xpn.1 (xpn.2.1.zip xpn.2.2))
    ((alpha.zip alpha_hat).zip beta) (x.zip (predicted_noise.zip noise))
  (x2, if 1 < i then k + 1 else k)

/-- The reverse loop of `sample`: fold `sampleStep` over the descending
timesteps. -/
def Diffusion.sampleLoop (d : Diffusion) (sq : ℚ → ℚ) (m : Model) (g : Entropy)
    (x0 : Batch) (k : ℕ) : Batch × ℕ :=
  (revTimesteps d.noise_steps).foldl (d.sampleStep sq m g) (x0, k)

/-- `sample(model, n)`: switch the model to evaluation mode, start from a
standard-normal batch of `n` samples of shape `3 × img_size × img_size`
(flattened), run the reverse loop, switch the model back to training mode,
and post-process into `uint8` pixels.  Returns the pixel batch, the model in
its final mode, and the final entropy counter. -/
def Diffusion.sample (d : Diffusion) (sq : ℚ → ℚ) (m : Model) (g : Entropy)
    (k : ℕ) (n : ℕ) : List (List ℕ) × Model × ℕ :=
  let m1 := m.eval
  let x0 := randnBatch g k n (3 * d.img_size * d.img_size)
  let res := d.sampleLoop sq m1 g x0 (k + 1)
  let m2 := m1.train
  ((res.1.map (fun xi => xi.map postprocess)), m2, res.2)

/-- The spec's closed-form description of `noise_images`: per sample `i`,
`noisy_i = sqrt(alpha_cumprod[t_i]) * x_i + sqrt(1 - alpha_cumprod[t_i]) * eps_i`
with one fresh full-shape noise draw `eps`.  Written from the spec sentence,
to be compared with `Diffusion.noise_images`. -/
def noiseImagesSpec (d : Diffusion) (sq : ℚ → ℚ) (g : Entropy) (k : ℕ)
    (x : Batch) (t : List ℤ) : (Batch × Batch) × ℕ :=
  let eps := randn_like g k x
  (((List.range x.length).map (fun i =>
      let a := d.alpha_hat.getD (t.getD i 0).toNat 0
      List.zipWith (fun xv ev => sq a * xv + sq (1 - a) * ev)
        (x.getD i []) (eps.getD i [])), eps), k + 1)

/-- The spec's description of one reverse-loop iteration: scalar coefficients
`alpha[i]`, `alpha_hat[i]`, `beta[i]` broadcast over the batch, `z` a fresh
standard-normal draw when `i > 1` and all zeros otherwise, and the update
`x = 1/sqrt(a) * (x - (1-a)/sqrt(1-a_hat) * predicted_noise) + sqrt(b) * z`.
Written from the spec sentence, to be compared with `Diffusion.sampleStep`. -/
def Diffusion.sampleStepSpec (d : Diffusion) (sq : ℚ → ℚ) (m : Model)
    (g : Entropy) (xk : Batch × ℕ) (i : ℕ) : Batch × ℕ :=
  let x := xk.1
  let k := xk.2
  let predicted_noise := m.run x (List.replicate x.length i)
  let a := d.alpha.getD i 0
  let ah := d.alpha_hat.getD i 0
  let b := d.beta.getD i 0
  let z := if 1 < i then randn_like g k x else zeros_like x
  (List.zipWith
    (fun xi (pz : List ℚ × List ℚ) =>
      List.zipWith
        (fun xv (pn : ℚ × ℚ) =>
          1 / sq a * (xv - (1 - a) / sq (1 - ah) * pn.1) + sq b * pn.2)
        xi (pz.1.zip pz.2))
    x (predicted_noise.zip z), if 1 < i then k + 1 else k)

/-- `sampleStep` instrumented with a trace of the timestep batches handed to
the predictor; the first component evolves exactly as `sampleStep`. -/
def Diffusion.sampleStepTr (d : Diffusion) (sq : ℚ → ℚ) (m : Model)
    (g : Entropy) (s : (Batch × ℕ) × List (List ℕ)) (i : ℕ) :
    (Batch × ℕ) × List (List ℕ) :=
  (d.sampleStep sq m g s.1 i, s.2 ++ [List.replicate s.1.1.length i])

/-- The reverse loop with the predictor-invocation trace. -/
def Diffusion.sampleLoopTr (d : Diffusion) (sq : ℚ → ℚ) (m : Model)
    (g : Entropy) (x0 : Batch) (k : ℕ) : (Batch × ℕ) × List (List ℕ) :=
  (revTimesteps d.noise_steps).foldl (d.sampleStepTr sq m g) ((x0, k), [])

/-- A batch of `n` samples, each of `L` elements. -/
def GoodBatch (n L : ℕ) (x : Batch) : Prop :=
  x.length = n ∧ ∀ xi ∈ x, xi.length = L

/-! ### Generic list lemmas -/

theorem zipWith_replicate_left {α β γ : Type} (f : α → β → γ) (a : α) :
    ∀ (n : ℕ) (l : List β),
      List.zipWith f (List.replicate n a) l = (l.take n).map (f a)
  | 0, _ => rfl
  | _ + 1, [] => rfl
  | n + 1, b :: l => by
    simp [List.replicate_succ, zipWith_replicate_left f a n l]

theorem foldl_preserves {σ : Type} {P : σ → Prop} {f : σ → ℕ → σ}
    (hf : ∀ s i, P s → P (f s i)) :
    ∀ (is : List ℕ) (s : σ), P s → P (is.foldl f s)
  | [], _, hs => hs
  | i :: is, s, hs => foldl_preserves hf is (f s i) (hf s i hs)

theorem getD_map_rat {α : Type} (f : α → ℚ) (l : List α) (da : α) (i : ℕ)
    (h : i < l.length) : (l.map f).getD i 0 = f (l.getD i da) := by
  rw [List.getD_eq_getElem?_getD, List.getD_eq_getElem?_getD,
    List.getElem?_eq_getElem (by simpa using h), List.getElem?_eq_getElem h]
  simp

/-! ### Schedule lemmas -/

theorem linspace_length (s e : ℚ) (T : ℕ) : (linspace s e T).length = T := by
  rw [linspace, List.length_map, List.length_range]

theorem linspace_getD (s e : ℚ) (T : ℕ) (i : ℕ) (h : i < T) :
    (linspace s e T).getD i 0 = s + (e - s) * i / ((T : ℚ) - 1) := by
  unfold linspace
  rw [List.getD_eq_getElem?_getD,
    List.getElem?_eq_getElem (by rw [List.length_map, List.length_range]; exact h)]
  simp only [List.getElem_map, List.getElem_range, Option.getD_some]

theorem cumprod_length (l : List ℚ) : (cumprod l).length = l.length := by
  induction l with
  | nil => rfl
  | cons a rest ih => simp [cumprod, ih]

theorem cumprod_getD (l : List ℚ) :
    ∀ i, i < l.length → (cumprod l).getD i 0 = (l.take (i + 1)).prod := by
  induction l with
  | nil => intro i h; simp at h
  | cons a rest ih =>
    intro i h
    match i with
    | 0 => simp [cumprod]
    | j + 1 =>
      have hj : j < rest.length := by simpa using h
      have hj' : j < (cumprod rest).length := by rw [cumprod_length]; exact hj
      show ((cumprod rest).map (fun v => a * v)).getD j 0 = _
      rw [getD_map_rat (fun v => a * v) (cumprod rest) 0 j hj', ih j hj]
      simp [mul_comm]

theorem cumprod_mem_Ioc (l : List ℚ) (hl : ∀ a ∈ l, 0 < a ∧ a ≤ 1) :
    ∀ c ∈ cumprod l, 0 < c ∧ c ≤ 1 := by
  induction l with
  | nil => intro c hc; simp [cumprod] at hc
  | cons a rest ih =>
    intro c hc
    have ha := hl a (by simp)
    rcases (by simpa [cumprod] using hc :
        c = a ∨ ∃ v ∈ cumprod rest, a * v = c) with rfl | ⟨v, hv, rfl⟩
    · exact ha
    · have hrest : ∀ b ∈ rest, 0 < b ∧ b ≤ 1 := fun b hb => hl b (by simp [hb])
      have hv' := ih hrest v hv
      exact ⟨mul_pos ha.1 hv'.1,
        le_trans (mul_le_mul ha.2 hv'.2 hv'.1.le zero_le_one) (by norm_num)⟩

/-! ### C5: the noise schedule is an inclusive, evenly spaced, strictly
increasing linspace -/

/-- C5: for `T ≥ 2` and `beta_start < beta_end`, `prepare_noise_schedule`
returns exactly `T` values, the first exactly `beta_start`, the last exactly
`beta_end`, with constant spacing `(beta_end - beta_start)/(T-1)` and
strictly increasing elementwise. -/
theorem prepare_noise_schedule_linspace (d : Diffusion)
    (hT : 2 ≤ d.noise_steps) (hse : d.beta_start < d.beta_end) :
    d.prepare_noise_schedule.length = d.noise_steps ∧
    d.prepare_noise_schedule.getD 0 0 = d.beta_start ∧
    d.prepare_noise_schedule.getD (d.noise_steps - 1) 0 = d.beta_end ∧
    (∀ i, i + 1 < d.noise_steps →
      d.prepare_noise_schedule.getD (i + 1) 0 - d.prepare_noise_schedule.getD i 0
        = (d.beta_end - d.beta_start) / ((d.noise_steps : ℚ) - 1)) ∧
    (∀ i, i + 1 < d.noise_steps →
      d.prepare_noise_schedule.getD i 0 < d.prepare_noise_schedule.getD (i + 1) 0) := by
  set T := d.noise_steps with hTdef
  set s := d.beta_start
  set e := d.beta_end
  have hT0 : 0 < T := by omega
  have hTq : (2 : ℚ) ≤ (T : ℚ) := by exact_mod_cast hT
  have hu : (0 : ℚ) < (T : ℚ) - 1 := by linarith
  have hgetD : ∀ i, i < T →
      d.prepare_noise_schedule.getD i 0 = s + (e - s) * i / ((T : ℚ) - 1) := by
    intro i hi
    exact linspace_getD s e T i hi
  have hspace : ∀ i, i + 1 < T →
      d.prepare_noise_schedule.getD (i + 1) 0 - d.prepare_noise_schedule.getD i 0
        = (e - s) / ((T : ℚ) - 1) := by
    intro i hi
    rw [hgetD (i + 1) hi, hgetD i (by omega)]
    push_cast
    field_simp
    ring
  refine ⟨by simpa [Diffusion.prepare_noise_schedule] using linspace_length s e T,
    ?_, ?_, fun i hi => hspace i hi, ?_⟩
  · rw [hgetD 0 hT0]; simp
  · rw [hgetD (T - 1) (by omega)]
    have hcast : ((T - 1 : ℕ) : ℚ) = (T : ℚ) - 1 := by
      have h1 : 1 ≤ T := by omega
      push_cast [h1]
      ring
    rw [hcast, mul_div_assoc, div_self (ne_of_gt hu)]
    ring
  · intro i hi
    have h := hspace i hi
    have hstep : (0 : ℚ) < (e - s) / ((T : ℚ) - 1) := div_pos (by linarith) hu
    linarith

/-- A concrete instance used by the witnesses: `T = 4`,
`beta_start = 1/10 < beta_end = 2/5 < 1`, `img_size = 1`
(so each sample has `3·1·1 = 3` elements). -/
def dEx : Diffusion :=
  { noise_steps := 4, beta_start := 1 / 10, beta_end := 2 / 5, img_size := 1 }

theorem prepare_noise_schedule_linspace_witness :
    2 ≤ dEx.noise_steps ∧ dEx.beta_start < dEx.beta_end ∧
    (dEx.prepare_noise_schedule.length = dEx.noise_steps ∧
     dEx.prepare_noise_schedule.getD 0 0 = dEx.beta_start ∧
     dEx.prepare_noise_schedule.getD (dEx.noise_steps - 1) 0 = dEx.beta_end ∧
     (∀ i, i + 1 < dEx.noise_steps →
       dEx.prepare_noise_schedule.getD (i + 1) 0 - dEx.prepare_noise_schedule.getD i 0
         = (dEx.beta_end - dEx.beta_start) / ((dEx.noise_steps : ℚ) - 1)) ∧
     (∀ i, i + 1 < dEx.noise_steps →
       dEx.prepare_noise_schedule.getD i 0
         < dEx.prepare_noise_schedule.getD (i + 1) 0)) :=
  ⟨by decide, by norm_num [dEx], prepare_noise_schedule_linspace dEx (by decide)
    (by norm_num [dEx])⟩

/-! ### C6: derived sequences -/

theorem mem_bounds_of_getD {l : List ℚ} {P : ℚ → Prop}
    (h : ∀ i < l.length, P (l.getD i 0)) : ∀ a ∈ l, P a := by
  intro a ha
  rcases List.mem_iff_getElem.mp ha with ⟨i, hi, rfl⟩
  have hP := h i hi
  rwa [List.getD_eq_getElem?_getD, List.getElem?_eq_getElem hi] at hP

theorem getD_eq_getElem_of_lt (l : List ℚ) (i : ℕ) (h : i < l.length) :
    l.getD i 0 = l[i] := by
  rw [List.getD_eq_getElem?_getD, List.getElem?_eq_getElem h]
  rfl

theorem cumprod_getD_zero (l : List ℚ) : (cumprod l).getD 0 0 = l.getD 0 0 := by
  cases l with
  | nil => rfl
  | cons a rest => rfl

theorem beta_getD_mem_Ioo (d : Diffusion) (hT : 1 ≤ d.noise_steps)
    (hs : 0 < d.beta_start) (hse : d.beta_start < d.beta_end)
    (he : d.beta_end < 1) :
    ∀ i < d.noise_steps, 0 < d.beta.getD i 0 ∧ d.beta.getD i 0 < 1 := by
  intro i hi
  have hb : d.beta.getD i 0
      = d.beta_start + (d.beta_end - d.beta_start) * i / ((d.noise_steps : ℚ) - 1) :=
    linspace_getD d.beta_start d.beta_end d.noise_steps i hi
  rcases Nat.lt_or_ge d.noise_steps 2 with h1 | h2
  · have hi0 : i = 0 := by omega
    subst hi0
    rw [hb]
    constructor <;> simp <;> linarith
  · have hTq : (2 : ℚ) ≤ (d.noise_steps : ℚ) := by exact_mod_cast h2
    have hu : (0 : ℚ) < (d.noise_steps : ℚ) - 1 := by linarith
    have hiu : (i : ℚ) ≤ (d.noise_steps : ℚ) - 1 := by
      have hc : ((i : ℚ) + 1) ≤ (d.noise_steps : ℚ) := by exact_mod_cast hi
      linarith
    have hnum : (0 : ℚ) ≤ (d.beta_end - d.beta_start) * i := by
      have : (0 : ℚ) ≤ (i : ℚ) := Nat.cast_nonneg i
      nlinarith
    have hup : (d.beta_end - d.beta_start) * i / ((d.noise_steps : ℚ) - 1)
        ≤ d.beta_end - d.beta_start := by
      rw [div_le_iff₀ hu]
      have : (0 : ℚ) < d.beta_end - d.beta_start := by linarith
      nlinarith
    constructor
    · rw [hb]
      have := div_nonneg hnum (le_of_lt hu)
      linarith
    · rw [hb]
      linarith

/-- C6: the derived sequences of a validly configured instance: all three
have length `T`; `alpha = 1 - beta` elementwise; `alpha_hat[i]` is the
product of `alpha[0..i]`; `alpha_hat` is strictly decreasing with every
element in `(0, 1]`; and `alpha_hat[0] = alpha[0] = 1 - beta[0]`.  (In the
embedding the three sequences are pure functions of the constructor
parameters, so immutability under `noise_images`, `sample_timesteps` and
`sample` holds by construction.) -/
theorem derived_sequences_invariants (d : Diffusion)
    (hT : 1 ≤ d.noise_steps) (hs : 0 < d.beta_start)
    (hse : d.beta_start < d.beta_end) (he : d.beta_end < 1) :
    (d.beta.length = d.noise_steps ∧ d.alpha.length = d.noise_steps ∧
      d.alpha_hat.length = d.noise_steps) ∧
    (∀ i < d.noise_steps, d.alpha.getD i 0 = 1 - d.beta.getD i 0) ∧
    (∀ i < d.noise_steps, d.alpha_hat.getD i 0 = (d.alpha.take (i + 1)).prod) ∧
    (∀ i, i + 1 < d.noise_steps →
      d.alpha_hat.getD (i + 1) 0 < d.alpha_hat.getD i 0) ∧
    (∀ c ∈ d.alpha_hat, 0 < c ∧ c ≤ 1) ∧
    d.alpha_hat.getD 0 0 = d.alpha.getD 0 0 ∧
    d.alpha.getD 0 0 = 1 - d.beta.getD 0 0 := by
  have hbl : d.beta.length = d.noise_steps :=
    linspace_length d.beta_start d.beta_end d.noise_steps
  have hal : d.alpha.length = d.noise_steps := by
    rw [Diffusion.alpha, List.length_map, hbl]
  have hahl : d.alpha_hat.length = d.noise_steps := by
    rw [Diffusion.alpha_hat, cumprod_length, hal]
  have halpha : ∀ i < d.noise_steps, d.alpha.getD i 0 = 1 - d.beta.getD i 0 := by
    intro i hi
    rw [Diffusion.alpha]
    exact getD_map_rat (fun b => 1 - b) d.beta 0 i (by rw [hbl]; exact hi)
  have halpha_mem : ∀ i < d.noise_steps, 0 < d.alpha.getD i 0 ∧ d.alpha.getD i 0 < 1 := by
    intro i hi
    have hb := beta_getD_mem_Ioo d hT hs hse he i hi
    rw [halpha i hi]
    exact ⟨by linarith [hb.2], by linarith [hb.1]⟩
  have halpha_mem' : ∀ a ∈ d.alpha, 0 < a ∧ a ≤ 1 := by
    apply mem_bounds_of_getD
    intro i hi
    have := halpha_mem i (by rw [← hal]; exact hi)
    exact ⟨this.1, le_of_lt this.2⟩
  have hprod : ∀ i < d.noise_steps, d.alpha_hat.getD i 0 = (d.alpha.take (i + 1)).prod := by
    intro i hi
    rw [Diffusion.alpha_hat]
    exact cumprod_getD (d.alpha) i (by rw [hal]; exact hi)
  have hpos : ∀ c ∈ d.alpha_hat, 0 < c ∧ c ≤ 1 :=
    cumprod_mem_Ioc d.alpha halpha_mem'
  refine ⟨⟨hbl, hal, hahl⟩, halpha, hprod, ?_, hpos, ?_, halpha 0 (by omega)⟩
  · intro i hi
    have hi' : i < d.noise_steps := by omega
    have hrec : d.alpha_hat.getD (i + 1) 0
        = d.alpha_hat.getD i 0 * d.alpha.getD (i + 1) 0 := by
      rw [hprod (i + 1) hi, hprod i hi', getD_eq_getElem_of_lt d.alpha (i + 1) (by omega),
        List.prod_take_succ d.alpha (i + 1) (by omega)]
    have hahpos : 0 < d.alpha_hat.getD i 0 := by
      have hmem : d.alpha_hat.getD i 0 ∈ d.alpha_hat := by
        rw [getD_eq_getElem_of_lt d.alpha_hat i (by omega)]
        exact List.getElem_mem _
      exact (hpos _ hmem).1
    have halt : d.alpha.getD (i + 1) 0 < 1 := (halpha_mem (i + 1) hi).2
    rw [hrec]
    calc d.alpha_hat.getD i 0 * d.alpha.getD (i + 1) 0
        < d.alpha_hat.getD i 0 * 1 := by
          exact mul_lt_mul_of_pos_left halt hahpos
      _ = d.alpha_hat.getD i 0 := mul_one _
  · rw [Diffusion.alpha_hat]
    exact cumprod_getD_zero d.alpha

theorem derived_sequences_invariants_witness :
    1 ≤ dEx.noise_steps ∧ 0 < dEx.beta_start ∧ dEx.beta_start < dEx.beta_end ∧
    dEx.beta_end < 1 ∧
    ((dEx.beta.length = dEx.noise_steps ∧ dEx.alpha.length = dEx.noise_steps ∧
      dEx.alpha_hat.length = dEx.noise_steps) ∧
    (∀ i < dEx.noise_steps, dEx.alpha.getD i 0 = 1 - dEx.beta.getD i 0) ∧
    (∀ i < dEx.noise_steps, dEx.alpha_hat.getD i 0 = (dEx.alpha.take (i + 1)).prod) ∧
    (∀ i, i + 1 < dEx.noise_steps →
      dEx.alpha_hat.getD (i + 1) 0 < dEx.alpha_hat.getD i 0) ∧
    (∀ c ∈ dEx.alpha_hat, 0 < c ∧ c ≤ 1) ∧
    dEx.alpha_hat.getD 0 0 = dEx.alpha.getD 0 0 ∧
    dEx.alpha.getD 0 0 = 1 - dEx.beta.getD 0 0) :=
  ⟨by decide, by norm_num [dEx], by norm_num [dEx], by norm_num [dEx],
    derived_sequences_invariants dEx (by decide) (by norm_num [dEx]) (by norm_num [dEx])
      (by norm_num [dEx])⟩

/-! ### C7: the constructor performs no validation -/

/-- C7 counterexample: constructing with `beta_start = -1 > beta_end = -2`
(both non-positive and wrongly ordered) succeeds instead of failing with
`InvalidConfiguration`. -/
theorem init_accepts_invalid_config :
    Diffusion.init 5 (-1) (-2) 64
      = Except.ok { noise_steps := 5, beta_start := -1, beta_end := -2,
                    img_size := 64 } :=
  rfl

/-- C7 (amended): `Diffusion.__init__` performs no validation at all — for
every parameter combination, including `beta_start <= 0`, `beta_end <= 0` and
`beta_start >= beta_end`, construction succeeds and simply stores the
parameters; no `InvalidConfiguration` error exists in the code. -/
theorem init_never_validates (T : ℕ) (s e : ℚ) (im : ℕ) :
    Diffusion.init T s e im
      = Except.ok { noise_steps := T, beta_start := s, beta_end := e,
                    img_size := im } :=
  rfl

/-! ### C9: sample_timesteps -/

/-- C9: for `T ≥ 2`, `sample_timesteps(n)` returns exactly `n` integers, each
in the inclusive range `[1, T-1]`; for `T = 2` every returned value is `1`;
and the draw's value map `u ↦ 1 + u % (T-1)` reaches every value of `[1, T-1]`
(so a uniform raw draw induces the uniform distribution on `[1, T-1]`). -/
theorem sample_timesteps_range (d : Diffusion) (gi : ℕ → ℕ) (k n : ℕ)
    (hT : 2 ≤ d.noise_steps) :
    (d.sample_timesteps gi k n).1.length = n ∧
    (∀ v ∈ (d.sample_timesteps gi k n).1, 1 ≤ v ∧ v ≤ d.noise_steps - 1) ∧
    (d.noise_steps = 2 → ∀ v ∈ (d.sample_timesteps gi k n).1, v = 1) ∧
    (∀ v, 1 ≤ v → v ≤ d.noise_steps - 1 →
      ∃ u, 1 + u % (d.noise_steps - 1) = v) := by
  have hpos : 0 < d.noise_steps - 1 := by omega
  refine ⟨by simp [Diffusion.sample_timesteps], ?_, ?_, ?_⟩
  · intro v hv
    simp only [Diffusion.sample_timesteps, List.mem_map, List.mem_range] at hv
    rcases hv with ⟨j, _, rfl⟩
    have := Nat.mod_lt (gi (k + j)) hpos
    omega
  · intro h2 v hv
    simp only [Diffusion.sample_timesteps, List.mem_map, List.mem_range] at hv
    rcases hv with ⟨j, _, rfl⟩
    have := Nat.mod_lt (gi (k + j)) hpos
    omega
  · intro v h1 h2
    exact ⟨v - 1, by rw [Nat.mod_eq_of_lt (by omega)]; omega⟩

theorem sample_timesteps_range_witness :
    2 ≤ dEx.noise_steps ∧
    ((dEx.sample_timesteps (fun u => u) 0 5).1.length = 5 ∧
    (∀ v ∈ (dEx.sample_timesteps (fun u => u) 0 5).1, 1 ≤ v ∧ v ≤ dEx.noise_steps - 1) ∧
    (dEx.noise_steps = 2 → ∀ v ∈ (dEx.sample_timesteps (fun u => u) 0 5).1, v = 1) ∧
    (∀ v, 1 ≤ v → v ≤ dEx.noise_steps - 1 →
      ∃ u, 1 + u % (dEx.noise_steps - 1) = v)) :=
  ⟨by decide, sample_timesteps_range dEx (fun u => u) 0 5 (by decide)⟩

/-! ### C10: sample's side effect on the model's mode -/

/-- C10: `sample` switches the model to evaluation mode before the reverse
loop (so its result does not depend on the mode the model arrived in) and
unconditionally switches it to training mode afterwards: the returned model
is always in training mode, whatever `mo` the caller's model was in. -/
theorem sample_model_mode_effect (d : Diffusion) (sq : ℚ → ℚ) (m : Model)
    (g : Entropy) (k n : ℕ) (mo : Mode) :
    (d.sample sq m g k n).2.1.mode = Mode.training ∧
    (d.sample sq m g k n).2.1.predict = m.predict ∧
    d.sample sq m g k n = d.sample sq { m with mode := mo } g k n :=
  ⟨rfl, rfl, rfl⟩

/-! ### randn_like and gather lemmas -/

theorem getD_eq_getElem_of_lt' {α : Type} (l : List α) (da : α) (i : ℕ)
    (h : i < l.length) : l.getD i da = l[i] := by
  rw [List.getD_eq_getElem?_getD, List.getElem?_eq_getElem h]
  rfl

theorem randn_like_length (g : Entropy) (k : ℕ) (x : Batch) :
    (randn_like g k x).length = x.length := by
  rw [randn_like, List.length_map, List.enum_length]

theorem randn_like_getD (g : Entropy) (k : ℕ) (x : Batch) (i : ℕ)
    (h : i < x.length) :
    (randn_like g k x).getD i [] = (List.range ((x.getD i []).length)).map (g k i) := by
  have h' : i < (randn_like g k x).length := by rw [randn_like_length]; exact h
  rw [getD_eq_getElem_of_lt' _ _ _ h', getD_eq_getElem_of_lt' _ _ _ h]
  simp [randn_like, List.getElem_enum]

theorem randn_like_getD_length (g : Entropy) (k : ℕ) (x : Batch) (i : ℕ)
    (h : i < x.length) :
    ((randn_like g k x).getD i []).length = (x.getD i []).length := by
  rw [randn_like_getD g k x i h, List.length_map, List.length_range]

theorem torchIndex_ok_of_valid (l : List ℚ) (ti : ℤ) (h : 0 ≤ ti ∧ ti < (l.length : ℤ)) :
    torchIndex l ti = Except.ok (l.getD ti.toNat 0) := by
  rw [torchIndex, if_pos h]

theorem gather_ok_of_valid (l : List ℚ) :
    ∀ (t : List ℤ), (∀ ti ∈ t, 0 ≤ ti ∧ ti < (l.length : ℤ)) →
      gather l t = Except.ok (t.map (fun ti => l.getD ti.toNat 0))
  | [], _ => rfl
  | ti :: rest, h => by
    rw [gather, torchIndex_ok_of_valid l ti (h ti (by simp)),
      gather_ok_of_valid l rest (fun x hx => h x (by simp [hx]))]
    rfl

theorem torchIndex_eq_error_iff (l : List ℚ) (ti : ℤ) :
    torchIndex l ti = Except.error TorchError.indexOutOfRange
      ↔ ti < -(l.length : ℤ) ∨ (l.length : ℤ) ≤ ti := by
  rw [torchIndex]
  by_cases h1 : 0 ≤ ti ∧ ti < (l.length : ℤ)
  · rw [if_pos h1]
    constructor
    · intro h; cases h
    · intro hbad; exfalso; omega
  · rw [if_neg h1]
    by_cases h2 : -(l.length : ℤ) ≤ ti ∧ ti < 0
    · rw [if_pos h2]
      constructor
      · intro h; cases h
      · intro hbad; exfalso; omega
    · rw [if_neg h2]
      constructor
      · intro _
        push_neg at h1 h2
        omega
      · intro _; rfl

theorem gather_eq_error_iff (l : List ℚ) :
    ∀ (t : List ℤ), (gather l t = Except.error TorchError.indexOutOfRange
      ↔ ∃ ti ∈ t, ti < -(l.length : ℤ) ∨ (l.length : ℤ) ≤ ti)
  | [] => by
    constructor
    · intro h; cases h
    · rintro ⟨ti, hti, -⟩; cases hti
  | ti :: rest => by
    rw [gather]
    cases hidx : torchIndex l ti with
    | error e =>
      cases e
      exact iff_of_true rfl ⟨ti, by simp, (torchIndex_eq_error_iff l ti).mp hidx⟩
    | ok v =>
      have hgood : ¬(ti < -(l.length : ℤ) ∨ (l.length : ℤ) ≤ ti) := by
        intro hbad
        rw [(torchIndex_eq_error_iff l ti).mpr hbad] at hidx
        cases hidx
      cases hrest : gather l rest with
      | error e =>
        cases e
        rcases (gather_eq_error_iff l rest).mp hrest with ⟨u, hu, hbadu⟩
        exact iff_of_true rfl ⟨u, by simp [hu], hbadu⟩
      | ok vs =>
        refine iff_of_false (fun h => ?_) (fun hex => ?_)
        · simp [Bind.bind, Except.bind] at h
        · rcases hex with ⟨u, hu, hbadu⟩
          rcases List.mem_cons.mp hu with rfl | hu'
          · exact hgood hbadu
          · have hr := (gather_eq_error_iff l rest).mpr ⟨u, hu', hbadu⟩
            rw [hr] at hrest
            cases hrest

/-! ### C1: the forward process is the closed-form reparameterization -/

/-- C1: for a batch `x` and valid timesteps `t` (each `0 ≤ t_i < T`),
`noise_images` succeeds and equals the spec's closed form: one fresh
standard-normal draw `eps` shaped like `x` (the entropy counter advances by
exactly one), and per sample `i` the value
`sqrt(alpha_hat[t_i]) * x_i + sqrt(1 - alpha_hat[t_i]) * eps_i`. -/
theorem noise_images_matches_spec (d : Diffusion) (sq : ℚ → ℚ) (g : Entropy)
    (k : ℕ) (x : Batch) (t : List ℤ)
    (hlen : t.length = x.length)
    (hval : ∀ ti ∈ t, 0 ≤ ti ∧ ti < (d.alpha_hat.length : ℤ)) :
    d.noise_images sq g k x t = Except.ok (noiseImagesSpec d sq g k x t) ∧
    (randn_like g k x).length = x.length ∧
    (∀ i < x.length, ((randn_like g k x).getD i []).length = (x.getD i []).length) := by
  refine ⟨?_, randn_like_length g k x, fun i hi => randn_like_getD_length g k x i hi⟩
  rw [Diffusion.noise_images, gather_ok_of_valid d.alpha_hat t hval]
  simp only [Bind.bind, Except.bind, noiseImagesSpec, Except.ok.injEq, Prod.mk.injEq]
  refine ⟨⟨?_, trivial⟩, trivial⟩
  have hahlen : (t.map (fun ti => d.alpha_hat.getD ti.toNat 0)).length = x.length := by
    rw [List.length_map, hlen]
  have hepslen : (randn_like g k x).length = x.length := randn_like_length g k x
  apply List.ext_getElem
  · simp only [List.length_zipWith, List.length_zip, List.length_map,
      List.length_range, hahlen, hepslen]
    omega
  · intro i h1 h2
    have hix : i < x.length := by
      simp only [List.length_zipWith, List.length_zip, List.length_map,
        List.length_range, hahlen, hepslen] at h1
      omega
    have hit : i < t.length := by omega
    have hieps : i < (randn_like g k x).length := by omega
    simp only [List.getElem_zipWith, List.getElem_zip, List.getElem_map,
      List.getElem_range]
    rw [getD_eq_getElem_of_lt' x [] i hix,
      getD_eq_getElem_of_lt' (randn_like g k x) [] i hieps,
      getD_eq_getElem_of_lt' t 0 i hit]

theorem noise_images_matches_spec_witness :
    (([(2 : ℤ)] : List ℤ).length = ([[1, 2]] : Batch).length ∧
     (∀ ti ∈ ([(2 : ℤ)] : List ℤ), 0 ≤ ti ∧ ti < (dEx.alpha_hat.length : ℤ))) ∧
    (dEx.noise_images (fun q => q) (fun _ _ _ => 0) 0 [[1, 2]] [2]
        = Except.ok (noiseImagesSpec dEx (fun q => q) (fun _ _ _ => 0) 0 [[1, 2]] [2]) ∧
     (randn_like (fun _ _ _ => 0) 0 [[1, 2]]).length = ([[1, 2]] : Batch).length ∧
     (∀ i < ([[1, 2]] : Batch).length,
       ((randn_like (fun _ _ _ => 0) 0 [[1, 2]]).getD i []).length
         = (([[1, 2]] : Batch).getD i []).length)) :=
  ⟨⟨by decide, by decide⟩,
    noise_images_matches_spec dEx (fun q => q) (fun _ _ _ => 0) 0 [[1, 2]] [2]
      (by decide) (by decide)⟩

/-! ### C8: out-of-range timesteps in noise_images -/

/-- C8 (amended): `noise_images` fails with `IndexOutOfRange` exactly when
some timestep satisfies `t_i ≥ T` or `t_i < -T`; a negative timestep in
`[-T, -1]` does NOT fail — tensor indexing silently wraps it to schedule
entry `T + t_i`. -/
theorem noise_images_error_iff (d : Diffusion) (sq : ℚ → ℚ) (g : Entropy)
    (k : ℕ) (x : Batch) (t : List ℤ) :
    d.noise_images sq g k x t = Except.error TorchError.indexOutOfRange
      ↔ ∃ ti ∈ t, ti < -(d.alpha_hat.length : ℤ) ∨ (d.alpha_hat.length : ℤ) ≤ ti := by
  rw [Diffusion.noise_images]
  cases hg : gather d.alpha_hat t with
  | error e =>
    cases e
    exact iff_of_true rfl ((gather_eq_error_iff d.alpha_hat t).mp hg)
  | ok ah =>
    refine iff_of_false (fun h => ?_) (fun hex => ?_)
    · simp [Bind.bind, Except.bind] at h
    · have hr := (gather_eq_error_iff d.alpha_hat t).mpr hex
      rw [hr] at hg
      cases hg

theorem dEx_beta_val : dEx.beta = [1 / 10, 1 / 5, 3 / 10, 2 / 5] := by
  rw [Diffusion.beta, Diffusion.prepare_noise_schedule, linspace]
  norm_num [dEx, List.range_succ]

theorem dEx_alpha_val : dEx.alpha = [9 / 10, 4 / 5, 7 / 10, 3 / 5] := by
  rw [Diffusion.alpha, dEx_beta_val]
  norm_num

theorem dEx_alpha_hat_val :
    dEx.alpha_hat = [9 / 10, 18 / 25, 63 / 125, 189 / 625] := by
  rw [Diffusion.alpha_hat, dEx_alpha_val]
  norm_num [cumprod]

/-- C8 counterexample: with `T = 4`, the negative timestep `-1` does not make
`noise_images` fail: indexing wraps to schedule entry `3` and the call
returns the value computed from `alpha_hat[3] = 189/625` (here `sq` is the
identity and the entropy stream is all zeros, so the noised value is exactly
`alpha_hat[3] * 1`). -/
theorem noise_images_negative_index_wraps :
    dEx.noise_images (fun q => q) (fun _ _ _ => 0) 0 [[1]] [-1]
      = Except.ok (([[(189 : ℚ) / 625]], [[0]]), 1) := by
  have h1 : torchIndex dEx.alpha_hat (-1) = Except.ok ((189 : ℚ) / 625) := by
    rw [torchIndex, dEx_alpha_hat_val]
    norm_num [List.getD]
    rfl
  have hg : gather dEx.alpha_hat [-1] = Except.ok [(189 : ℚ) / 625] := by
    rw [gather, h1]
    rfl
  rw [Diffusion.noise_images, hg]
  simp only [Bind.bind, Except.bind, randn_like, List.enum, List.enumFrom,
    List.length_cons, List.length_nil, List.range_succ, List.range_zero]
  norm_num [List.zipWith]

/-! ### C2: the reverse-loop update -/

/-- C2: each reverse-loop iteration computes exactly the spec's update: the
gathered per-sample coefficient tensors collapse to the scalars `alpha[i]`,
`alpha_hat[i]`, `beta[i]`, the noise `z` is a fresh standard-normal draw when
`i > 1` and all zeros otherwise (consuming entropy only in the first case),
and the new state is
`1/sqrt(a) * (x - (1-a)/sqrt(1-a_hat) * predicted_noise) + sqrt(b) * z`. -/
theorem sampleStep_matches_spec (d : Diffusion) (sq : ℚ → ℚ) (m : Model)
    (g : Entropy) (xk : Batch × ℕ) (i : ℕ) :
    d.sampleStep sq m g xk i = d.sampleStepSpec sq m g xk i := by
  simp only [Diffusion.sampleStep, Diffusion.sampleStepSpec, List.map_replicate,
    List.zip_replicate']
  rw [zipWith_replicate_left, List.take_of_length_le (by rw [List.length_zip]; omega),
    ← List.map_uncurry_zip_eq_zipWith]
  rfl

/-! ### C3: the reverse loop's iteration structure -/

theorem randnBatch_length (g : Entropy) (k n L : ℕ) :
    (randnBatch g k n L).length = n := by
  rw [randnBatch, List.length_map, List.length_range]

theorem zeros_like_length (x : Batch) : (zeros_like x).length = x.length := by
  rw [zeros_like, List.length_map]

theorem sampleStep_length (d : Diffusion) (sq : ℚ → ℚ) (m : Model) (g : Entropy)
    (hm : ∀ mo x t, (m.predict mo x t).length = x.length)
    (xk : Batch × ℕ) (i : ℕ) :
    (d.sampleStep sq m g xk i).1.length = xk.1.length := by
  have hnoise : (if 1 < i then randn_like g xk.2 xk.1 else zeros_like xk.1).length
      = xk.1.length := by
    split
    · exact randn_like_length g xk.2 xk.1
    · exact zeros_like_length xk.1
  simp only [Diffusion.sampleStep, Model.run, List.length_zipWith, List.length_zip,
    List.length_map, List.length_replicate, hm, hnoise]
  omega

theorem sampleLoopTr_proj (d : Diffusion) (sq : ℚ → ℚ) (m : Model) (g : Entropy) :
    ∀ (is : List ℕ) (s : (Batch × ℕ) × List (List ℕ)),
      (is.foldl (d.sampleStepTr sq m g) s).1 = is.foldl (d.sampleStep sq m g) s.1
  | [], _ => rfl
  | i :: is, s => by
    rw [List.foldl_cons, List.foldl_cons]
    exact sampleLoopTr_proj d sq m g is _

theorem sampleLoopTr_trace_aux (d : Diffusion) (sq : ℚ → ℚ) (m : Model)
    (g : Entropy) (hm : ∀ mo x t, (m.predict mo x t).length = x.length) :
    ∀ (is : List ℕ) (x : Batch) (k : ℕ) (tr : List (List ℕ)),
      (is.foldl (d.sampleStepTr sq m g) ((x, k), tr)).2
        = tr ++ is.map (fun i => List.replicate x.length i)
  | [], x, k, tr => by simp
  | i :: is, x, k, tr => by
    rw [List.foldl_cons]
    have hlen : (d.sampleStep sq m g (x, k) i).1.length = x.length :=
      sampleStep_length d sq m g hm (x, k) i
    rcases hstep : d.sampleStep sq m g (x, k) i with ⟨x', k'⟩
    rw [hstep] at hlen
    have htail := sampleLoopTr_trace_aux d sq m g hm is x' k'
      (tr ++ [List.replicate x.length i])
    have hTr : d.sampleStepTr sq m g ((x, k), tr) i
        = ((x', k'), tr ++ [List.replicate x.length i]) := by
      rw [Diffusion.sampleStepTr, hstep]
    rw [hTr, htail, hlen]
    simp

theorem revTimesteps_length (T : ℕ) : (revTimesteps T).length = T - 1 := by
  rw [revTimesteps, List.length_reverse, List.length_range']

theorem revTimesteps_mem (T : ℕ) (i : ℕ) : i ∈ revTimesteps T ↔ 1 ≤ i ∧ i < T := by
  rw [revTimesteps, List.mem_reverse, List.mem_range'_1]
  omega

theorem revTimesteps_pairwise (T : ℕ) :
    List.Pairwise (fun a b => b < a) (revTimesteps T) := by
  rw [revTimesteps, List.pairwise_reverse]
  exact List.pairwise_lt_range' 1 (T - 1)

/-- C3: with a batch-size-preserving predictor, the reverse loop of `sample`
started from the initial batch of `n` samples queries the predictor once per
iteration, with the full batch carrying the same broadcast timestep; the
recorded calls are exactly `[T-1, ..., 1].map (replicate n)` — so the
predictor is invoked exactly `T-1` times, the visited timesteps are strictly
descending, pairwise distinct, and are exactly the integers of `[1, T-1]`.
The instrumented loop projects to the uninstrumented one, so the trace is
faithful. -/
theorem sample_reverse_loop_trace (d : Diffusion) (sq : ℚ → ℚ) (m : Model)
    (g : Entropy) (k n : ℕ)
    (hm : ∀ mo x t, (m.predict mo x t).length = x.length) :
    (d.sampleLoopTr sq m g (randnBatch g k n (3 * d.img_size * d.img_size)) (k + 1)).2
      = (revTimesteps d.noise_steps).map (fun i => List.replicate n i) ∧
    (∀ (x0 : Batch) (k0 : ℕ),
      (d.sampleLoopTr sq m g x0 k0).1 = d.sampleLoop sq m g x0 k0) ∧
    (revTimesteps d.noise_steps).length = d.noise_steps - 1 ∧
    List.Pairwise (fun a b => b < a) (revTimesteps d.noise_steps) ∧
    (revTimesteps d.noise_steps).Nodup ∧
    (∀ i, i ∈ revTimesteps d.noise_steps ↔ 1 ≤ i ∧ i < d.noise_steps) := by
  refine ⟨?_, ?_, revTimesteps_length d.noise_steps, revTimesteps_pairwise d.noise_steps,
    ?_, fun i => revTimesteps_mem d.noise_steps i⟩
  · rw [Diffusion.sampleLoopTr,
      sampleLoopTr_trace_aux d sq m g hm (revTimesteps d.noise_steps) _ _ [],
      randnBatch_length]
    simp
  · intro x0 k0
    rw [Diffusion.sampleLoopTr, Diffusion.sampleLoop,
      sampleLoopTr_proj d sq m g (revTimesteps d.noise_steps) ((x0, k0), [])]
  · exact (revTimesteps_pairwise d.noise_steps).imp (fun h => ne_of_gt h)

/-- The zero predictor used by witnesses: ignores mode and timestep and
returns an all-zeros tensor of the input's shape. -/
def mEx : Model :=
  { mode := Mode.training, predict := fun _ x _ => zeros_like x }

theorem sample_reverse_loop_trace_witness :
    (∀ (mo : Mode) (x : Batch) (t : List ℕ),
      (mEx.predict mo x t).length = x.length) ∧
    ((dEx.sampleLoopTr (fun q => q) mEx (fun _ _ _ => 0)
        (randnBatch (fun _ _ _ => 0) 0 2 (3 * dEx.img_size * dEx.img_size)) (0 + 1)).2
      = (revTimesteps dEx.noise_steps).map (fun i => List.replicate 2 i) ∧
    (∀ (x0 : Batch) (k0 : ℕ),
      (dEx.sampleLoopTr (fun q => q) mEx (fun _ _ _ => 0) x0 k0).1
        = dEx.sampleLoop (fun q => q) mEx (fun _ _ _ => 0) x0 k0) ∧
    (revTimesteps dEx.noise_steps).length = dEx.noise_steps - 1 ∧
    List.Pairwise (fun a b => b < a) (revTimesteps dEx.noise_steps) ∧
    (revTimesteps dEx.noise_steps).Nodup ∧
    (∀ i, i ∈ revTimesteps dEx.noise_steps ↔ 1 ≤ i ∧ i < dEx.noise_steps)) :=
  ⟨fun _ x _ => zeros_like_length x,
    sample_reverse_loop_trace dEx (fun q => q) mEx (fun _ _ _ => 0) 0 2
      (fun _ x _ => zeros_like_length x)⟩

/-! ### C4: the final pixel pipeline -/

theorem truncInt_eq_floor (q : ℚ) : truncInt q = ⌊q⌋ :=
  Rat.floor_def.symm

theorem clamp_mem (v : ℚ) : -1 ≤ clamp v (-1) 1 ∧ clamp v (-1) 1 ≤ 1 :=
  ⟨le_min (le_max_right v (-1)) (by norm_num), min_le_right _ 1⟩

theorem postprocess_bounds (v : ℚ) :
    0 ≤ truncInt ((clamp v (-1) 1 + 1) / 2 * 255) ∧
    truncInt ((clamp v (-1) 1 + 1) / 2 * 255) ≤ 255 ∧
    postprocess v = (truncInt ((clamp v (-1) 1 + 1) / 2 * 255)).toNat := by
  obtain ⟨h1, h2⟩ := clamp_mem v
  have hw0 : 0 ≤ (clamp v (-1) 1 + 1) / 2 * 255 := by
    rw [div_mul_eq_mul_div]
    apply div_nonneg ?_ (by norm_num)
    nlinarith
  have hw255 : (clamp v (-1) 1 + 1) / 2 * 255 ≤ 255 := by
    rw [div_mul_eq_mul_div, div_le_iff₀ (by norm_num : (0 : ℚ) < 2)]
    nlinarith
  have hf0 : 0 ≤ ⌊(clamp v (-1) 1 + 1) / 2 * 255⌋ := Int.floor_nonneg.mpr hw0
  have hf255 : ⌊(clamp v (-1) 1 + 1) / 2 * 255⌋ ≤ 255 := by
    have h := Int.floor_le_floor hw255
    have h255 : ⌊(255 : ℚ)⌋ = 255 := by norm_num
    omega
  rw [truncInt_eq_floor]
  refine ⟨hf0, hf255, ?_⟩
  rw [postprocess, toUInt8, truncInt_eq_floor,
    Int.emod_eq_of_lt hf0 (by omega)]

theorem randn_like_goodBatch {n L : ℕ} (g : Entropy) (k : ℕ) {x : Batch}
    (h : GoodBatch n L x) : GoodBatch n L (randn_like g k x) := by
  obtain ⟨h1, h2⟩ := h
  constructor
  · rw [randn_like_length, h1]
  · intro xi hxi
    rcases List.mem_iff_getElem.mp hxi with ⟨j, hj, rfl⟩
    have hjx : j < x.length := by
      have := randn_like_length g k x
      omega
    have hlen := randn_like_getD_length g k x j hjx
    rw [getD_eq_getElem_of_lt' _ [] j hj, getD_eq_getElem_of_lt' x [] j hjx] at hlen
    rw [hlen]
    exact h2 _ (List.getElem_mem hjx)

theorem zeros_like_goodBatch {n L : ℕ} {x : Batch} (h : GoodBatch n L x) :
    GoodBatch n L (zeros_like x) := by
  obtain ⟨h1, h2⟩ := h
  refine ⟨by rw [zeros_like_length, h1], ?_⟩
  intro xi hxi
  rcases List.mem_map.mp hxi with ⟨y, hy, rfl⟩
  rw [List.length_map]
  exact h2 y hy

theorem randnBatch_goodBatch (g : Entropy) (k n L : ℕ) :
    GoodBatch n L (randnBatch g k n L) := by
  refine ⟨randnBatch_length g k n L, ?_⟩
  intro xi hxi
  rcases List.mem_map.mp hxi with ⟨y, hy, rfl⟩
  rw [List.length_map, List.length_range]

theorem sampleStep_goodBatch (d : Diffusion) (sq : ℚ → ℚ) (m : Model)
    (g : Entropy) {n L : ℕ}
    (hm : ∀ mo x t, GoodBatch n L x → GoodBatch n L (m.predict mo x t))
    (xk : Batch × ℕ) (i : ℕ) (hx : GoodBatch n L xk.1) :
    GoodBatch n L (d.sampleStep sq m g xk i).1 := by
  obtain ⟨x, k⟩ := xk
  obtain ⟨hxl, hxe⟩ := hx
  replace hxl : x.length = n := hxl
  replace hxe : ∀ xi ∈ x, xi.length = L := hxe
  have hp : GoodBatch n L (m.predict m.mode x (List.replicate x.length i)) :=
    hm _ _ _ ⟨hxl, hxe⟩
  have hz : GoodBatch n L (if 1 < i then randn_like g k x else zeros_like x) := by
    split
    · exact randn_like_goodBatch g k ⟨hxl, hxe⟩
    · exact zeros_like_goodBatch ⟨hxl, hxe⟩
  obtain ⟨hpl, hpe⟩ := hp
  obtain ⟨hzl, hze⟩ := hz
  constructor
  · simp only [Diffusion.sampleStep, Model.run, List.length_zipWith, List.length_zip,
      List.length_map, List.length_replicate]
    rw [hpl, hzl, hxl]
    omega
  · intro row hrow
    rcases List.mem_iff_getElem.mp hrow with ⟨j, hj, rfl⟩
    have hj' := hj
    simp only [Diffusion.sampleStep, Model.run, List.length_zipWith, List.length_zip,
      List.length_map, List.length_replicate] at hj'
    rw [hpl, hzl, hxl] at hj'
    have hjx : j < x.length := by omega
    have hjp : j < (m.predict m.mode x (List.replicate x.length i)).length := by
      rw [hpl]; omega
    have hjz : j < (if 1 < i then randn_like g k x else zeros_like x).length := by
      rw [hzl]; omega
    simp only [Diffusion.sampleStep, Model.run, List.getElem_zipWith, List.getElem_zip]
    rw [List.length_zipWith, List.length_zip]
    have e1 : x[j].length = L := hxe _ (List.getElem_mem hjx)
    have e2 : (m.predict m.mode x (List.replicate x.length i))[j].length = L :=
      hpe _ (List.getElem_mem hjp)
    have e3 : (if 1 < i then randn_like g k x else zeros_like x)[j].length = L :=
      hze _ (List.getElem_mem hjz)
    rw [e1, e2, e3]
    omega

/-- C4: the returned batch of `sample` is exactly the loop output pushed
through the pixel pipeline `clamp → (x+1)/2 → ·255 → uint8`; with a
shape-preserving predictor it has exactly `n` samples of `3·img_size²`
elements, every value is an integer `≤ 255` (values are `ℕ`, hence in
`[0, 255]`), and the pipeline never wraps: `postprocess v` is the plain
truncation of `(clamp v (-1) 1 + 1)/2 * 255`, which always lies in
`[0, 255]`. -/
theorem sample_output_shape_range (d : Diffusion) (sq : ℚ → ℚ) (m : Model)
    (g : Entropy) (k n : ℕ)
    (hm : ∀ mo x t, GoodBatch n (3 * d.img_size * d.img_size) x →
      GoodBatch n (3 * d.img_size * d.img_size) (m.predict mo x t)) :
    (d.sample sq m g k n).1
      = (d.sampleLoop sq m.eval g
          (randnBatch g k n (3 * d.img_size * d.img_size)) (k + 1)).1.map
          (fun xi => xi.map postprocess) ∧
    (d.sample sq m g k n).1.length = n ∧
    (∀ r ∈ (d.sample sq m g k n).1, r.length = 3 * d.img_size * d.img_size) ∧
    (∀ r ∈ (d.sample sq m g k n).1, ∀ v ∈ r, v ≤ 255) ∧
    (∀ v : ℚ, 0 ≤ truncInt ((clamp v (-1) 1 + 1) / 2 * 255) ∧
      truncInt ((clamp v (-1) 1 + 1) / 2 * 255) ≤ 255 ∧
      postprocess v = (truncInt ((clamp v (-1) 1 + 1) / 2 * 255)).toNat) := by
  have hloop : GoodBatch n (3 * d.img_size * d.img_size)
      (d.sampleLoop sq m.eval g
        (randnBatch g k n (3 * d.img_size * d.img_size)) (k + 1)).1 := by
    rw [Diffusion.sampleLoop]
    exact foldl_preserves
      (fun s i hs => sampleStep_goodBatch d sq m.eval g hm s i hs)
      (revTimesteps d.noise_steps) _
      (randnBatch_goodBatch g k n (3 * d.img_size * d.img_size))
  obtain ⟨hll, hle⟩ := hloop
  refine ⟨rfl, ?_, ?_, ?_, postprocess_bounds⟩
  · show ((d.sampleLoop sq m.eval g _ (k + 1)).1.map
      (fun xi => xi.map postprocess)).length = n
    rw [List.length_map, hll]
  · intro r hr
    rcases List.mem_map.mp hr with ⟨xi, hxi, rfl⟩
    rw [List.length_map]
    exact hle xi hxi
  · intro r hr v hv
    rcases List.mem_map.mp hr with ⟨xi, _, rfl⟩
    rcases List.mem_map.mp hv with ⟨u, _, rfl⟩
    obtain ⟨hb0, hb255, hbeq⟩ := postprocess_bounds u
    omega

theorem sample_output_shape_range_witness :
    (∀ (mo : Mode) (x : Batch) (t : List ℕ),
      GoodBatch 2 (3 * dEx.img_size * dEx.img_size) x →
      GoodBatch 2 (3 * dEx.img_size * dEx.img_size) (mEx.predict mo x t)) ∧
    ((dEx.sample (fun q => q) mEx (fun _ _ _ => 0) 0 2).1
      = (dEx.sampleLoop (fun q => q) mEx.eval (fun _ _ _ => 0)
          (randnBatch (fun _ _ _ => 0) 0 2 (3 * dEx.img_size * dEx.img_size)) (0 + 1)).1.map
          (fun xi => xi.map postprocess) ∧
    (dEx.sample (fun q => q) mEx (fun _ _ _ => 0) 0 2).1.length = 2 ∧
    (∀ r ∈ (dEx.sample (fun q => q) mEx (fun _ _ _ => 0) 0 2).1,
      r.length = 3 * dEx.img_size * dEx.img_size) ∧
    (∀ r ∈ (dEx.sample (fun q => q) mEx (fun _ _ _ => 0) 0 2).1,
      ∀ v ∈ r, v ≤ 255) ∧
    (∀ v : ℚ, 0 ≤ truncInt ((clamp v (-1) 1 + 1) / 2 * 255) ∧
      truncInt ((clamp v (-1) 1 + 1) / 2 * 255) ≤ 255 ∧
      postprocess v = (truncInt ((clamp v (-1) 1 + 1) / 2 * 255)).toNat)) :=
  ⟨fun _ _ _ h => zeros_like_goodBatch h,
    sample_output_shape_range dEx (fun q => q) mEx (fun _ _ _ => 0) 0 2
      (fun _ _ _ h => zeros_like_goodBatch h)⟩

end DDPM
